/-
Verification of the psiexperiment hardware-output streaming engine.

Shallow embedding of `psi/controller/output.py` (BufferedOutput, EpochOutput,
QueuedEpochOutput, Output.notify), `psi/controller/calibration/__init__.py`
(PointCalibration, InterpCalibration), and — where the repository file is not
available — models of `SignalBuffer` (psi/util.py) and the signal queue
(psi/controller/queue.py) built from the specification's description.

Samples are rationals; absolute sample offsets are naturals.
-/

import Mathlib

set_option maxHeartbeats 1000000
set_option maxRecDepth 10000

namespace PsiOut

/-- Write `vals` into list `xs` starting at position `start`
(the semantics of a NumPy slice assignment `xs[start:start+len(vals)] = vals`). -/
def listSet (xs : List ℚ) (start : ℕ) (vals : List ℚ) : List ℚ :=
  xs.take start ++ vals ++ xs.drop (start + vals.length)

/-- Modelled from the spec: `SampleRingBuffer` / `SignalBuffer` of `psi/util.py`
(the file is not in the provided sources).  Fixed-capacity circular store
addressed by absolute monotonic sample offset; `data` covers the offset range
`[ub - data.length, ub)`. -/
structure SignalBuffer where
  capacity : ℕ
  ub : ℕ
  data : List ℚ
  deriving Repr, DecidableEq

/-- Lower bound of the currently valid cached range. -/
def SignalBuffer.lbV (b : SignalBuffer) : ℕ := b.ub - b.data.length

/-- Modelled from the spec: append extends the valid range by `len(samples)`;
if the total buffered exceeds capacity, the oldest excess is dropped. -/
def SignalBuffer.append_data (b : SignalBuffer) (xs : List ℚ) : SignalBuffer :=
  let d := b.data ++ xs
  { b with ub := b.ub + xs.length, data := d.drop (d.length - b.capacity) }

/-- Modelled from the spec: contiguous copy of `[lo, hi)` from the buffer. -/
def SignalBuffer.get_range_samples (b : SignalBuffer) (lo hi : ℕ) : List ℚ :=
  (b.data.drop (lo - b.lbV)).take (hi - lo)

/-- Modelled from the spec: the one-argument form `get_range_samples(lo)`
returns the cached tail from `lo` to the buffer's upper bound. -/
def SignalBuffer.get_range_from (b : SignalBuffer) (lo : ℕ) : List ℚ :=
  b.data.drop (lo - b.lbV)

/-- Modelled from the spec: `invalidate_samples(o)` sets `ub = min(ub, o)`,
discarding speculatively generated future samples. -/
def SignalBuffer.invalidate_samples (b : SignalBuffer) (o : ℕ) : SignalBuffer :=
  if o < b.ub then
    { b with ub := o, data := b.data.take (b.data.length - (b.ub - o)) }
  else b

/-- Sample of the buffer at absolute offset `j` (0 outside the stored list). -/
def SignalBuffer.bufAt (b : SignalBuffer) (j : ℕ) : ℚ :=
  b.data.getD (j - b.lbV) 0

/-- Modelled from the spec: a finite one-shot `EpochSource`
(`psi/token/primitives.py` factories are not in the provided sources).
`next n` yields the next `n` samples of the waveform, zero padded once the
waveform is exhausted, and `is_complete` becomes true once the play
position has reached the end of the waveform. -/
structure EpochSource where
  waveform : List ℚ
  pos : ℕ
  deriving Repr, DecidableEq

/-- Sample the source would produce `j` steps from its current position. -/
def EpochSource.srcAt (s : EpochSource) (j : ℕ) : ℚ :=
  s.waveform.getD (s.pos + j) 0

/-- Modelled from the spec: draw `n` samples from the source. -/
def EpochSource.next (s : EpochSource) (n : ℕ) : List ℚ × EpochSource :=
  ((List.range n).map (fun i => s.srcAt i), { s with pos := s.pos + n })

/-- Modelled from the spec: completion report of the source. -/
def EpochSource.is_complete (s : EpochSource) : Bool :=
  s.waveform.length ≤ s.pos

/-- Errors raised on the pull path.  `contractViolation` is the `SystemError
('Mismatch between offsets')` of `BufferedOutput.get_samples`;
`attributeError` models the Python crash of accessing `self.source` when no
source is assigned while active. -/
inductive PullError where
  | contractViolation
  | attributeError
  deriving Repr, DecidableEq

/-- State of an `EpochOutput` channel (`psi/controller/output.py`):
a `SignalBuffer`, the activation offset `_offset`, the `active` flag and the
optional current source. -/
structure EOState where
  buffer : SignalBuffer
  off : ℕ
  active : Bool
  source : Option EpochSource
  deriving Repr, DecidableEq

/-- `BufferedOutput.deactivate` (output.py lines 175-179). -/
def EOState.deactivate (st : EOState) (offset : ℕ) : EOState :=
  { st with active := false, source := none,
            buffer := st.buffer.invalidate_samples offset }

/-- `BufferedOutput.activate` (output.py lines 169-173). -/
def EOState.activate (st : EOState) (offset : ℕ) : EOState :=
  { st with active := true, off := offset,
            buffer := st.buffer.invalidate_samples offset }

/-- `EpochOutput.get_next_samples` (output.py lines 190-212). -/
def EOState.get_next_samples (st : EOState) (samples : ℕ) :
    Except PullError (List ℚ × EOState) :=
  if st.active then
    match st.source with
    | none => .error .attributeError
    | some src =>
      let buffered_ub := st.buffer.ub
      let zero_padding := min (st.off - buffered_ub) samples
      let waveform_samples := samples - zero_padding
      let p := if waveform_samples ≠ 0 then src.next waveform_samples else ([], src)
      let stA : EOState := { st with source := some p.2 }
      let stB := if p.2.is_complete then stA.deactivate stA.buffer.ub else stA
      .ok (List.replicate zero_padding 0 ++ p.1, stB)
  else
    .ok (List.replicate samples 0, st)

/-- Intermediate state of one `get_samples` call: the output array being
filled, the remaining `samples` count, the advanced `offset`, and the channel
state. -/
structure PullMid where
  out : List ℚ
  samples : ℕ
  offset : ℕ
  st : EOState

/-- The branch cascade of `BufferedOutput.get_samples`
(output.py lines 129-146): serve from the buffer where cached. -/
def cascadePhase (st : EOState) (offset samples : ℕ) (out : List ℚ) : PullMid :=
  let lb := offset
  let ub := offset + samples
  let buffered_lb := st.buffer.lbV
  let buffered_ub := st.buffer.ub
  if lb = buffered_ub then
    ⟨out, samples, offset, st⟩
  else if buffered_lb ≤ lb ∧ ub ≤ buffered_ub then
    ⟨listSet out 0 (st.buffer.get_range_samples lb ub), 0, ub, st⟩
  else if buffered_lb ≤ lb ∧ buffered_ub < ub then
    let b := st.buffer.get_range_from lb
    ⟨listSet out 0 b, samples - b.length, offset + b.length, st⟩
  else
    ⟨out, samples, offset, st⟩

/-- The pre-activation zero step of `BufferedOutput.get_samples`
(output.py lines 148-158): samples requested before the activation offset are
zeros, also appended to the buffer. -/
def zerosPhase (m : PullMid) : PullMid :=
  if m.samples ≠ 0 ∧ m.offset < m.st.off then
    let s := min (m.st.off - m.offset) m.samples
    let data := List.replicate s (0 : ℚ)
    let st2 : EOState := { m.st with buffer := m.st.buffer.append_data data }
    ⟨listSet m.out (m.out.length - m.samples) data, m.samples - s, m.offset + s, st2⟩
  else m

/-- The generation step of `BufferedOutput.get_samples`
(output.py lines 160-164): remaining samples come from `get_next_samples`
and are appended to the buffer. -/
def genPhase (m : PullMid) : Except PullError (List ℚ × EOState) :=
  if m.samples ≠ 0 then
    match m.st.get_next_samples m.samples with
    | .error e => .error e
    | .ok (data, st3) =>
      let st4 : EOState := { st3 with buffer := st3.buffer.append_data data }
      .ok (listSet m.out (m.out.length - m.samples) data, st4)
  else
    .ok (m.out, m.st)

/-- `BufferedOutput.get_samples` (output.py lines 118-164). -/
def EOState.get_samples (st : EOState) (offset samples : ℕ) (out : List ℚ) :
    Except PullError (List ℚ × EOState) :=
  if st.buffer.ub < offset then .error .contractViolation
  else genPhase (zerosPhase (cascadePhase st offset samples out))

/-- The samples the channel in state `st` is committed to emit at absolute
offset `j`: cached buffer content below the buffer's upper bound, silence up
to the activation offset, then the source's waveform while active. -/
def timeline (st : EOState) (j : ℕ) : ℚ :=
  if j < st.buffer.ub then st.buffer.bufAt j
  else if j < st.off then 0
  else if st.active then
    match st.source with
    | some s => s.srcAt (j - max st.buffer.ub st.off)
    | none => 0
  else 0

/-- Channel-state well-formedness: the buffer stores no more samples than its
upper bound, and an active channel has a source. -/
def EOState.Inv (st : EOState) : Prop :=
  st.buffer.data.length ≤ st.buffer.ub ∧ (st.active = true → st.source.isSome = true)

instance (st : EOState) : Decidable st.Inv := by
  unfold EOState.Inv; infer_instance

/-- A gap-free sequence of pulls: each call's offset is the previous call's
offset plus its length; each call receives a fresh zero hardware buffer of
the requested length.  Returns the concatenation of all returned chunks. -/
def pullSeq (st : EOState) (o : ℕ) (ns : List ℕ) :
    Except PullError (List ℚ × EOState) :=
  match ns with
  | [] => .ok ([], st)
  | n :: rest =>
    match st.get_samples o n (List.replicate n 0) with
    | .error e => .error e
    | .ok (chunk, st1) =>
      match pullSeq st1 (o + n) rest with
      | .error e => .error e
      | .ok (chunks, st2) => .ok (chunk ++ chunks, st2)

/-! ### List and buffer helper lemmas -/

theorem listSet_append (pre td vals : List ℚ) :
    listSet (pre ++ td) pre.length vals = pre ++ vals ++ td.drop vals.length := by
  unfold listSet
  rw [List.take_left, List.drop_append]

theorem drop_take_map (xs : List ℚ) (a c : ℕ) (h : a + c ≤ xs.length) :
    (xs.drop a).take c = (List.range c).map (fun i => xs.getD (a + i) 0) := by
  apply List.ext_getElem
  · simp only [List.length_take, List.length_drop, List.length_map, List.length_range]
    omega
  · intro i h1 h2
    simp only [List.length_take, List.length_drop] at h1
    simp only [List.getElem_take, List.getElem_drop, List.getElem_map, List.getElem_range]
    rw [List.getD_eq_getElem _ _ (by omega)]

theorem lbV_le_ub (b : SignalBuffer) : b.lbV ≤ b.ub := Nat.sub_le _ _

theorem get_range_samples_spec (b : SignalBuffer) (lo hi : ℕ)
    (hwf : b.data.length ≤ b.ub) (hlo : b.lbV ≤ lo) (hhi : hi ≤ b.ub) :
    b.get_range_samples lo hi = (List.range (hi - lo)).map (fun i => b.bufAt (lo + i)) := by
  unfold SignalBuffer.get_range_samples
  rcases le_or_lt lo hi with hle | hlt
  · rw [drop_take_map _ _ _ (by unfold SignalBuffer.lbV at *; omega)]
    apply List.map_congr_left
    intro i hi'
    simp only [List.mem_range] at hi'
    unfold SignalBuffer.bufAt
    congr 1
    unfold SignalBuffer.lbV at *
    omega
  · have h0 : hi - lo = 0 := by omega
    simp [h0]

theorem get_range_from_spec (b : SignalBuffer) (lo : ℕ)
    (hwf : b.data.length ≤ b.ub) (hlo : b.lbV ≤ lo) (hub : lo ≤ b.ub) :
    b.get_range_from lo = (List.range (b.ub - lo)).map (fun i => b.bufAt (lo + i)) := by
  have h1 : b.get_range_from lo = b.get_range_samples lo b.ub := by
    unfold SignalBuffer.get_range_from SignalBuffer.get_range_samples
    rw [List.take_of_length_le]
    simp only [List.length_drop]
    unfold SignalBuffer.lbV at *
    omega
  rw [h1, get_range_samples_spec b lo b.ub hwf hlo le_rfl]

theorem append_data_ub (b : SignalBuffer) (xs : List ℚ) :
    (b.append_data xs).ub = b.ub + xs.length := rfl

theorem append_data_wf (b : SignalBuffer) (xs : List ℚ) (hwf : b.data.length ≤ b.ub) :
    (b.append_data xs).data.length ≤ (b.append_data xs).ub := by
  unfold SignalBuffer.append_data
  simp only [List.length_drop, List.length_append]
  omega

theorem invalidate_self (b : SignalBuffer) : b.invalidate_samples b.ub = b := by
  unfold SignalBuffer.invalidate_samples
  simp

theorem map_range_zero (n : ℕ) (f : ℕ → ℚ) (h : ∀ i, i < n → f i = 0) :
    (List.range n).map f = List.replicate n 0 := by
  apply List.ext_getElem
  · simp
  · intro i h1 h2
    simp only [List.getElem_map, List.getElem_range, List.getElem_replicate]
    exact h i (by simpa using h1)

/-- Appending pre-activation zeros to the buffer does not change the
committed timeline at or beyond the new buffer upper bound. -/
theorem timeline_append_zeros (st : EOState) (s : ℕ)
    (hle : st.buffer.ub + s ≤ st.off) (j : ℕ) (hj : st.buffer.ub + s ≤ j) :
    timeline { st with buffer := st.buffer.append_data (List.replicate s 0) } j
      = timeline st j := by
  simp only [timeline, append_data_ub, List.length_replicate]
  have h1 : ¬ j < st.buffer.ub + s := by omega
  have h2 : ¬ j < st.buffer.ub := by omega
  simp only [h1, h2, if_false]
  by_cases hoff : j < st.off
  · simp [hoff]
  · simp only [hoff, if_false]
    simp only [sup_eq_right.mpr hle, sup_eq_right.mpr (show st.buffer.ub ≤ st.off by omega)]

/-- Specification of the generation step: with the pull position at the
buffer's upper bound and at/after activation, `genPhase` produces exactly the
committed timeline and advances the buffer accordingly. -/
theorem gen_spec (st : EOState) (o rem : ℕ) (pre td : List ℚ)
    (ho : st.buffer.ub = o) (hoff : st.off ≤ o) (htd : td.length = rem)
    (hrem : rem ≠ 0) (hinv : st.Inv) :
    ∃ st4, genPhase ⟨pre ++ td, rem, o, st⟩ =
        .ok (pre ++ (List.range rem).map (fun i => timeline st (o + i)), st4)
      ∧ st4.Inv ∧ st4.buffer.ub = o + rem
      ∧ ∀ j, o + rem ≤ j → timeline st4 j = timeline st j := by
  have hpos : (pre ++ td).length - rem = pre.length := by
    simp [htd]
  have hdropnil : td.drop rem = [] := List.drop_eq_nil_of_le (by omega)
  cases hact : st.active with
  | false =>
    have hnext : st.get_next_samples rem = .ok (List.replicate rem 0, st) := by
      unfold EOState.get_next_samples
      rw [hact]
      simp
    have hzero : ∀ i, i < rem → timeline st (o + i) = 0 := by
      intro i hi
      unfold timeline
      rw [if_neg (by omega), if_neg (by omega), hact]
      simp
    refine ⟨{ st with buffer := st.buffer.append_data (List.replicate rem 0) }, ?_, ?_, ?_, ?_⟩
    · unfold genPhase
      rw [if_pos hrem]
      simp only [hnext]
      rw [map_range_zero rem _ hzero, hpos, listSet_append]
      simp [hdropnil]
    · exact ⟨append_data_wf _ _ hinv.1, fun h => hinv.2 h⟩
    · rw [append_data_ub, List.length_replicate, ho]
    · intro j hj
      have h1 : ¬ j < st.buffer.ub + rem := by omega
      have h2 : ¬ j < st.buffer.ub := by omega
      have h3 : ¬ j < st.off := by omega
      simp [timeline, append_data_ub, List.length_replicate, hact, h1, h2, h3]
  | true =>
    obtain ⟨src, hsrc⟩ : ∃ src, st.source = some src := by
      have h2 := hinv.2 hact
      cases hs : st.source with
      | none => rw [hs] at h2; simp at h2
      | some s => exact ⟨s, rfl⟩
    have hzp : min (st.off - st.buffer.ub) rem = 0 := by omega
    have hmap : (List.range rem).map (fun i => src.srcAt i)
        = (List.range rem).map (fun i => timeline st (o + i)) := by
      apply List.map_congr_left
      intro i hi
      simp only [List.mem_range] at hi
      unfold timeline
      rw [if_neg (by omega), if_neg (by omega), hact]
      simp only [if_pos rfl, hsrc, ho, sup_eq_left.mpr hoff]
      congr 1
      omega
    have hlen : ((List.range rem).map (fun i => src.srcAt i)).length = rem := by
      simp
    by_cases hcomp : ({ src with pos := src.pos + rem } : EpochSource).is_complete = true
    · have hnext : st.get_next_samples rem =
          .ok ((List.range rem).map (fun i => src.srcAt i),
               ⟨st.buffer, st.off, false, none⟩) := by
        unfold EOState.get_next_samples
        rw [hact, hsrc]
        simp only [if_pos rfl, hzp, Nat.sub_zero, hrem]
        simp [hrem, EpochSource.next, EOState.deactivate, invalidate_self, hcomp]
      refine ⟨⟨st.buffer.append_data ((List.range rem).map (fun i => src.srcAt i)),
               st.off, false, none⟩, ?_, ?_, ?_, ?_⟩
      · unfold genPhase
        rw [if_pos hrem]
        simp only [hnext]
        rw [hpos, listSet_append, hlen, hdropnil, hmap]
        simp
      · exact ⟨append_data_wf _ _ hinv.1, by simp⟩
      · rw [append_data_ub, hlen, ho]
      · intro j hj
        have hco : src.waveform.length ≤ src.pos + rem := by
          have h := hcomp
          unfold EpochSource.is_complete at h
          simpa using h
        have h1 : ¬ j < st.buffer.ub + rem := by omega
        have h2 : ¬ j < st.buffer.ub := by omega
        have h3 : ¬ j < st.off := by omega
        unfold timeline
        simp only [append_data_ub, hlen, hact, hsrc, h1, h2, h3, if_false, if_pos rfl]
        rw [sup_eq_left.mpr (show st.off ≤ st.buffer.ub by omega)]
        unfold EpochSource.srcAt
        rw [List.getD_eq_default _ _ (by omega)]
        simp
    · have hnext : st.get_next_samples rem =
          .ok ((List.range rem).map (fun i => src.srcAt i),
               ⟨st.buffer, st.off, st.active, some { src with pos := src.pos + rem }⟩) := by
        unfold EOState.get_next_samples
        rw [hact, hsrc]
        simp only [if_pos rfl, hzp, Nat.sub_zero, hrem]
        simp [hrem, EpochSource.next, hcomp, hact]
      refine ⟨⟨st.buffer.append_data ((List.range rem).map (fun i => src.srcAt i)),
               st.off, st.active, some { src with pos := src.pos + rem }⟩, ?_, ?_, ?_, ?_⟩
      · unfold genPhase
        rw [if_pos hrem]
        simp only [hnext]
        rw [hpos, listSet_append, hlen, hdropnil, hmap]
        simp
      · exact ⟨append_data_wf _ _ hinv.1, by simp⟩
      · rw [append_data_ub, hlen, ho]
      · intro j hj
        have h1 : ¬ j < st.buffer.ub + rem := by omega
        have h2 : ¬ j < st.buffer.ub := by omega
        have h3 : ¬ j < st.off := by omega
        unfold timeline
        simp only [append_data_ub, List.length_map, List.length_range, hact, hsrc,
                   h1, h2, h3, if_false, if_pos rfl]
        rw [sup_eq_left.mpr (show st.off ≤ st.buffer.ub + rem by omega),
            sup_eq_left.mpr (show st.off ≤ st.buffer.ub by omega)]
        simp only [if_true]
        unfold EpochSource.srcAt
        congr 1
        dsimp only
        omega

theorem map_range_split (f : ℕ → ℚ) (a b : ℕ) :
    (List.range (a + b)).map f
      = (List.range a).map f ++ (List.range b).map (fun i => f (a + i)) := by
  rw [List.range_add, List.map_append, List.map_map]
  rfl

/-- The zero-fill step when it fires. -/
theorem zerosPhase_fire (st : EOState) (o rem : ℕ) (pre td : List ℚ)
    (hlen : (pre ++ td).length - rem = pre.length)
    (hrem : rem ≠ 0) (hoff : o < st.off) :
    zerosPhase ⟨pre ++ td, rem, o, st⟩ =
      ⟨pre ++ List.replicate (min (st.off - o) rem) 0
           ++ td.drop (min (st.off - o) rem),
       rem - min (st.off - o) rem, o + min (st.off - o) rem,
       { st with buffer := st.buffer.append_data (List.replicate (min (st.off - o) rem) 0) }⟩ := by
  unfold zerosPhase
  rw [if_pos ⟨hrem, hoff⟩]
  dsimp only
  rw [hlen, listSet_append, List.length_replicate]

/-- The zero-fill step when it does not fire. -/
theorem zerosPhase_skip (m : PullMid) (h : ¬ (m.samples ≠ 0 ∧ m.offset < m.st.off)) :
    zerosPhase m = m := by
  unfold zerosPhase
  rw [if_neg h]

/-- The generation step when no samples remain. -/
theorem genPhase_skip (m : PullMid) (h : m.samples = 0) :
    genPhase m = .ok (m.out, m.st) := by
  unfold genPhase
  rw [if_neg (by simp [h])]

/-- Specification of the zero-fill and generation steps combined: starting a
pull tail at the buffer's upper bound produces exactly the committed
timeline. -/
theorem tail_spec (st : EOState) (o rem : ℕ) (pre td : List ℚ)
    (ho : st.buffer.ub = o) (htd : td.length = rem) (hrem : rem ≠ 0)
    (hinv : st.Inv) :
    ∃ st4, genPhase (zerosPhase ⟨pre ++ td, rem, o, st⟩) =
        .ok (pre ++ (List.range rem).map (fun i => timeline st (o + i)), st4)
      ∧ st4.Inv ∧ st4.buffer.ub = o + rem
      ∧ ∀ j, o + rem ≤ j → timeline st4 j = timeline st j := by
  have hposlen : (pre ++ td).length - rem = pre.length := by
    simp [htd]
  by_cases hoff : o < st.off
  · rw [zerosPhase_fire st o rem pre td hposlen hrem hoff]
    by_cases hsr : min (st.off - o) rem = rem
    · rw [hsr]
      have hdropnil : td.drop rem = [] := List.drop_eq_nil_of_le (by omega)
      have hzero : ∀ i, i < rem → timeline st (o + i) = 0 := by
        intro i hi
        unfold timeline
        rw [if_neg (by omega), if_pos (by omega)]
      rw [genPhase_skip _ (by dsimp only; omega)]
      refine ⟨{ st with buffer := st.buffer.append_data (List.replicate rem 0) },
              ?_, ?_, ?_, ?_⟩
      · rw [map_range_zero rem _ hzero, hdropnil]
        simp
      · exact ⟨append_data_wf _ _ hinv.1, fun h => hinv.2 h⟩
      · rw [append_data_ub, List.length_replicate, ho]
      · intro j hj
        exact timeline_append_zeros st rem (by omega) j (by omega)
    · have hs1 : min (st.off - o) rem = st.off - o := by omega
      have hs2 : o + (st.off - o) = st.off := by omega
      rw [hs1, hs2]
      have hstep : (pre ++ List.replicate (st.off - o) 0 ++ td.drop (st.off - o))
          = (pre ++ List.replicate (st.off - o) 0) ++ td.drop (st.off - o) := by
        simp [List.append_assoc]
      have hub2 : ({ st with buffer := st.buffer.append_data (List.replicate (st.off - o) 0) } : EOState).buffer.ub = st.off := by
        rw [append_data_ub, List.length_replicate, ho]
        omega
      obtain ⟨st4, hgen, hinv4, hub4, hpres4⟩ :=
        gen_spec { st with buffer := st.buffer.append_data (List.replicate (st.off - o) 0) }
          st.off (rem - (st.off - o))
          (pre ++ List.replicate (st.off - o) 0) (td.drop (st.off - o))
          hub2 le_rfl (by simp [htd]) (by omega)
          ⟨append_data_wf _ _ hinv.1, fun h => hinv.2 h⟩
      rw [hstep, hgen]
      have hbridge : ∀ j, st.off ≤ j →
          timeline { st with buffer := st.buffer.append_data (List.replicate (st.off - o) 0) } j = timeline st j := by
        intro j hj
        exact timeline_append_zeros st (st.off - o) (by omega) j (by omega)
      refine ⟨st4, ?_, hinv4, by rw [hub4]; omega, ?_⟩
      · have hmap2 : (List.range (rem - (st.off - o))).map
            (fun i => timeline { st with buffer := st.buffer.append_data (List.replicate (st.off - o) 0) } (st.off + i))
            = (List.range (rem - (st.off - o))).map
              (fun i => timeline st (o + ((st.off - o) + i))) := by
          apply List.map_congr_left
          intro i hi
          rw [hbridge (st.off + i) (by omega)]
          congr 1
          omega
        have hzeros : (List.range (st.off - o)).map (fun i => timeline st (o + i))
            = List.replicate (st.off - o) 0 := by
          apply map_range_zero
          intro i hi
          unfold timeline
          rw [if_neg (by omega), if_pos (by omega)]
        have hsplit := map_range_split (fun i => timeline st (o + i)) (st.off - o)
          (rem - (st.off - o))
        rw [show (st.off - o) + (rem - (st.off - o)) = rem by omega] at hsplit
        rw [hmap2, hsplit, hzeros]
        simp [List.append_assoc]
      · intro j hj
        rw [hpres4 j (by omega), hbridge j (by omega)]
  · rw [zerosPhase_skip _ (by dsimp only; omega)]
    exact gen_spec st o rem pre td ho (by omega) htd hrem hinv

theorem listSet_full (xs vals : List ℚ) (h : xs.length ≤ vals.length) :
    listSet xs 0 vals = vals := by
  unfold listSet
  rw [List.take_zero, List.nil_append, List.drop_eq_nil_of_le (by omega),
      List.append_nil]

/-- The cascade when the request is fully cached. -/
theorem cascade_cached (st : EOState) (o n : ℕ) (out : List ℚ)
    (hout : out.length = n) (hwf : st.buffer.data.length ≤ st.buffer.ub)
    (hlb : st.buffer.lbV ≤ o) (hub : o + n ≤ st.buffer.ub) :
    cascadePhase st o n out =
      ⟨(List.range n).map (fun i => timeline st (o + i)), 0, o + n, st⟩ := by
  unfold cascadePhase
  dsimp only
  by_cases h1 : o = st.buffer.ub
  · rw [if_pos h1]
    have hn : n = 0 := by omega
    subst hn
    have hnil : out = [] := List.eq_nil_of_length_eq_zero hout
    subst hnil
    simp
  · rw [if_neg h1, if_pos ⟨hlb, hub⟩]
    have hr : st.buffer.get_range_samples o (o + n)
        = (List.range n).map (fun i => timeline st (o + i)) := by
      rw [get_range_samples_spec st.buffer o (o + n) hwf hlb hub]
      rw [show o + n - o = n by omega]
      apply List.map_congr_left
      intro i hi
      simp only [List.mem_range] at hi
      unfold timeline
      rw [if_pos (by omega)]
    rw [hr, listSet_full _ _ (by simp [hout])]

/-- The cascade when the request extends beyond the cached upper bound. -/
theorem cascade_gen (st : EOState) (o n : ℕ) (out : List ℚ)
    (hout : out.length = n) (hwf : st.buffer.data.length ≤ st.buffer.ub)
    (hlb : st.buffer.lbV ≤ o) (hub : o ≤ st.buffer.ub)
    (hover : st.buffer.ub < o + n) :
    cascadePhase st o n out =
      ⟨(List.range (st.buffer.ub - o)).map (fun i => timeline st (o + i))
          ++ out.drop (st.buffer.ub - o),
       n - (st.buffer.ub - o), st.buffer.ub, st⟩ := by
  unfold cascadePhase
  dsimp only
  by_cases h1 : o = st.buffer.ub
  · rw [if_pos h1]
    have h0 : st.buffer.ub - o = 0 := by omega
    rw [h0]
    simp [h1]
  · rw [if_neg h1, if_neg (by rintro ⟨-, h⟩; omega), if_pos ⟨hlb, hover⟩]
    have hblen : (st.buffer.get_range_from o).length = st.buffer.ub - o := by
      unfold SignalBuffer.get_range_from SignalBuffer.lbV at *
      simp only [List.length_drop]
      omega
    have hbval : st.buffer.get_range_from o
        = (List.range (st.buffer.ub - o)).map (fun i => timeline st (o + i)) := by
      rw [get_range_from_spec st.buffer o hwf hlb hub]
      apply List.map_congr_left
      intro i hi
      simp only [List.mem_range] at hi
      unfold timeline
      rw [if_pos (by omega)]
    have hset : listSet out 0 (st.buffer.get_range_from o)
        = st.buffer.get_range_from o ++ out.drop (st.buffer.ub - o) := by
      unfold listSet
      simp [hblen]
    rw [hset, hblen, hbval, show o + (st.buffer.ub - o) = st.buffer.ub by omega]

/-- The central refinement: a valid `get_samples` call returns exactly the
committed timeline over the requested range, and leaves the timeline at and
beyond the end of the request unchanged. -/
theorem get_samples_spec (st : EOState) (o n : ℕ) (out : List ℚ)
    (hout : out.length = n) (hinv : st.Inv)
    (hlb : st.buffer.lbV ≤ o) (hub : o ≤ st.buffer.ub) :
    ∃ st2, st.get_samples o n out =
        .ok ((List.range n).map (fun i => timeline st (o + i)), st2)
      ∧ st2.Inv ∧ st2.buffer.lbV ≤ o + n ∧ o + n ≤ st2.buffer.ub
      ∧ ∀ j, o + n ≤ j → timeline st2 j = timeline st j := by
  unfold EOState.get_samples
  rw [if_neg (by omega)]
  rcases le_or_lt (o + n) st.buffer.ub with hc | hc
  · rw [cascade_cached st o n out hout hinv.1 hlb hc]
    rw [zerosPhase_skip _ (by dsimp only; simp)]
    rw [genPhase_skip _ rfl]
    exact ⟨st, rfl, hinv, by omega, by omega, fun j hj => rfl⟩
  · rw [cascade_gen st o n out hout hinv.1 hlb hub hc]
    obtain ⟨st4, hgen, hinv4, hub4, hpres⟩ :=
      tail_spec st st.buffer.ub (n - (st.buffer.ub - o))
        ((List.range (st.buffer.ub - o)).map (fun i => timeline st (o + i)))
        (out.drop (st.buffer.ub - o)) rfl (by simp [hout]) (by omega) hinv
    rw [hgen]
    refine ⟨st4, ?_, hinv4, ?_, ?_, ?_⟩
    · have hsplit := map_range_split (fun i => timeline st (o + i))
        (st.buffer.ub - o) (n - (st.buffer.ub - o))
      rw [show (st.buffer.ub - o) + (n - (st.buffer.ub - o)) = n by omega] at hsplit
      rw [hsplit]
      have htl : (List.range (n - (st.buffer.ub - o))).map
            (fun i => timeline st (o + (st.buffer.ub - o + i)))
          = (List.range (n - (st.buffer.ub - o))).map
            (fun i => timeline st (st.buffer.ub + i)) := by
        apply List.map_congr_left
        intro i hi
        congr 1
        omega
      rw [htl]
    · have := lbV_le_ub st4.buffer
      omega
    · omega
    · intro j hj
      exact hpres j (by omega)

theorem pullSeq_spec (ns : List ℕ) (st : EOState) (o : ℕ)
    (hinv : st.Inv) (hlb : st.buffer.lbV ≤ o) (hub : o ≤ st.buffer.ub) :
    ∃ st2, pullSeq st o ns =
        .ok ((List.range ns.sum).map (fun i => timeline st (o + i)), st2) := by
  induction ns generalizing st o with
  | nil => exact ⟨st, by simp [pullSeq]⟩
  | cons n rest ih =>
    obtain ⟨st1, heq, hinv1, hlb1, hub1, hpres⟩ :=
      get_samples_spec st o n (List.replicate n 0) (by simp) hinv hlb hub
    obtain ⟨st2, heq2⟩ := ih st1 (o + n) hinv1 hlb1 hub1
    refine ⟨st2, ?_⟩
    unfold pullSeq
    rw [heq]
    dsimp only
    rw [heq2]
    have hpr : (List.range rest.sum).map (fun i => timeline st1 (o + n + i))
        = (List.range rest.sum).map (fun i => timeline st (o + (n + i))) := by
      apply List.map_congr_left
      intro i hi
      rw [hpres (o + n + i) (by omega)]
      congr 1
      omega
    rw [hpr, List.sum_cons, map_range_split]

/-- C1: pull-chunking is transparent.  For every gap-free sequence of
`get_samples` pulls starting at a valid offset, the concatenation of all
returned chunks equals the samples of one single `get_samples` call of the
total length from the same starting state. -/
theorem pull_chunking_transparent (st : EOState) (o : ℕ) (ns : List ℕ)
    (hinv : st.Inv) (hlb : st.buffer.lbV ≤ o) (hub : o ≤ st.buffer.ub) :
    ∃ total stA stB,
      pullSeq st o ns = .ok (total, stA)
      ∧ st.get_samples o ns.sum (List.replicate ns.sum 0) = .ok (total, stB) := by
  obtain ⟨stA, hA⟩ := pullSeq_spec ns st o hinv hlb hub
  obtain ⟨stB, hB, _, _, _, _⟩ :=
    get_samples_spec st o ns.sum (List.replicate ns.sum 0) (by simp) hinv hlb hub
  exact ⟨_, stA, stB, hA, hB⟩

theorem pull_chunking_transparent_witness :
    (⟨⟨16, 0, []⟩, 4, true, some ⟨[1, 2, 3], 0⟩⟩ : EOState).Inv
    ∧ (⟨⟨16, 0, []⟩, 4, true, some ⟨[1, 2, 3], 0⟩⟩ : EOState).buffer.lbV ≤ 0
    ∧ 0 ≤ (⟨⟨16, 0, []⟩, 4, true, some ⟨[1, 2, 3], 0⟩⟩ : EOState).buffer.ub
    ∧ ∃ total stA stB,
        pullSeq ⟨⟨16, 0, []⟩, 4, true, some ⟨[1, 2, 3], 0⟩⟩ 0 [2, 3, 4]
          = .ok (total, stA)
        ∧ EOState.get_samples ⟨⟨16, 0, []⟩, 4, true, some ⟨[1, 2, 3], 0⟩⟩ 0
            ([2, 3, 4] : List ℕ).sum (List.replicate ([2, 3, 4] : List ℕ).sum 0)
          = .ok (total, stB) :=
  ⟨by decide, by decide, by decide,
   pull_chunking_transparent ⟨⟨16, 0, []⟩, 4, true, some ⟨[1, 2, 3], 0⟩⟩ 0 [2, 3, 4]
     (by decide) (by decide) (by decide)⟩

theorem get_next_no_contract (st : EOState) (n : ℕ) :
    st.get_next_samples n ≠ .error .contractViolation := by
  unfold EOState.get_next_samples
  by_cases ha : st.active = true
  · rw [if_pos ha]
    cases st.source with
    | none => simp
    | some src => simp
  · rw [if_neg ha]
    simp

theorem genPhase_no_contract (m : PullMid) :
    genPhase m ≠ .error .contractViolation := by
  unfold genPhase
  by_cases h : m.samples ≠ 0
  · rw [if_pos h]
    cases hres : m.st.get_next_samples m.samples with
    | error e =>
      have hnc := get_next_no_contract m.st m.samples
      rw [hres] at hnc
      cases e
      · exact fun _ => hnc rfl
      · simp
    | ok p =>
      cases p
      simp
  · rw [if_neg h]
    simp

/-- C2: `get_samples` fails with the contract-violation error exactly when the
requested offset is strictly greater than the buffer's upper bound of
generated samples; for offsets at or below that bound this error is never
raised. -/
theorem contract_violation_iff (st : EOState) (offset samples : ℕ)
    (out : List ℚ) :
    st.get_samples offset samples out = .error .contractViolation
      ↔ st.buffer.ub < offset := by
  constructor
  · intro h
    by_contra hc
    unfold EOState.get_samples at h
    rw [if_neg hc] at h
    exact genPhase_no_contract _ h
  · intro h
    unfold EOState.get_samples
    rw [if_pos h]

theorem next_eq_drop_pad (src : EpochSource) (n : ℕ)
    (h : src.waveform.length - src.pos ≤ n) :
    (List.range n).map (fun i => src.srcAt i)
      = src.waveform.drop src.pos
        ++ List.replicate (n - (src.waveform.length - src.pos)) 0 := by
  apply List.ext_getElem
  · simp
    omega
  · intro i h1 h2
    simp only [List.length_map, List.length_range] at h1
    simp only [List.getElem_map, List.getElem_range, List.getElem_append,
               List.length_drop]
    unfold EpochSource.srcAt
    by_cases hlt : i < src.waveform.length - src.pos
    · rw [dif_pos hlt, List.getElem_drop]
      rw [List.getD_eq_getElem _ _ (by omega)]
    · rw [dif_neg hlt, List.getElem_replicate]
      exact List.getD_eq_default _ _ (by omega)

/-- C3: if an active epoch output's source has only `k < n` samples remaining
when `get_next_samples n` is called (with no pending pre-activation padding),
the pull returns those `k` samples followed by `n - k` zeros, the channel is
deactivated with its buffer intact, and every subsequent pull returns all
zeros. -/
theorem epoch_completion_mid_pull (st : EOState) (src : EpochSource) (n k : ℕ)
    (hact : st.active = true) (hsrc : st.source = some src)
    (hk : src.waveform.length - src.pos = k) (hkn : k < n)
    (hoff : st.off ≤ st.buffer.ub) :
    st.get_next_samples n =
        .ok (src.waveform.drop src.pos ++ List.replicate (n - k) 0,
             ⟨st.buffer, st.off, false, none⟩)
      ∧ (⟨st.buffer, st.off, false, none⟩ : EOState).active = false
      ∧ ∀ m, EOState.get_next_samples ⟨st.buffer, st.off, false, none⟩ m
          = .ok (List.replicate m 0, ⟨st.buffer, st.off, false, none⟩) := by
  have hzp : min (st.off - st.buffer.ub) n = 0 := by omega
  have hcomp : ({ src with pos := src.pos + n } : EpochSource).is_complete = true := by
    unfold EpochSource.is_complete
    simp
    omega
  refine ⟨?_, rfl, ?_⟩
  · unfold EOState.get_next_samples
    rw [hact, hsrc]
    simp only [if_pos rfl, hzp, Nat.sub_zero]
    simp [show n ≠ 0 by omega, EpochSource.next, EOState.deactivate,
          invalidate_self, hcomp]
    rw [next_eq_drop_pad src n (by omega), hk]
  · intro m
    unfold EOState.get_next_samples
    simp

theorem epoch_completion_mid_pull_witness :
    EOState.get_next_samples ⟨⟨1000, 50, List.replicate 50 0⟩, 0, true,
        some ⟨List.replicate 150 1, 0⟩⟩ 200 =
      .ok ((⟨List.replicate 150 1, 0⟩ : EpochSource).waveform.drop
            (⟨List.replicate 150 1, 0⟩ : EpochSource).pos
          ++ List.replicate (200 - 150) 0,
           ⟨⟨1000, 50, List.replicate 50 0⟩, 0, false, none⟩)
    ∧ (⟨⟨1000, 50, List.replicate 50 0⟩, 0, false, none⟩ : EOState).active = false
    ∧ ∀ m, EOState.get_next_samples ⟨⟨1000, 50, List.replicate 50 0⟩, 0, false, none⟩ m
        = .ok (List.replicate m 0, ⟨⟨1000, 50, List.replicate 50 0⟩, 0, false, none⟩) :=
  epoch_completion_mid_pull ⟨⟨1000, 50, List.replicate 50 0⟩, 0, true,
      some ⟨List.replicate 150 1, 0⟩⟩ ⟨List.replicate 150 1, 0⟩ 200 150
    rfl rfl (by decide) (by decide) (by decide)

/-! ### Output.notify and the chunk store (C5, C9) -/

/-- A notification chunk: reported start time `t0` (seconds), samples, and an
opaque metadata tag. -/
structure Chunk where
  t0 : ℚ
  samples : List ℚ
  metadata : ℕ
  deriving Repr, DecidableEq

/-- A store of chunk objects, modelling Python object identity: a chunk is
designated by its index (reference) into the store. -/
abbrev ChunkStore := List Chunk

/-- `Output.notify` (output.py lines 65-70) over the reference store:
`d = data.copy()` allocates a fresh chunk equal to the caller's,
`d['t0'] += self.filter_delay` mutates only the copy, and the copy's
reference is handed to each registered callback in registration order.
Returns the store after the call and the delivery list
(callback, chunk reference). -/
def notify (filter_delay : ℚ) (callbacks : List ℕ) (store : ChunkStore)
    (dataRef : ℕ) : ChunkStore × List (ℕ × ℕ) :=
  let d := store.getD dataRef ⟨0, [], 0⟩
  let newRef := store.length
  let store1 := store ++ [d]
  let store2 := store1.set newRef { d with t0 := d.t0 + filter_delay }
  (store2, callbacks.map (fun cb => (cb, newRef)))

/-! ### QueuedEpochOutput.pause / resume offset arithmetic (C6) -/

/-- Python `int()` applied to a rational: truncation toward zero. -/
def pyInt (q : ℚ) : ℤ := if 0 ≤ q then ⌊q⌋ else ⌈q⌉

/-- Python 3 `round()` applied to a rational: round half to even. -/
def pyRound (q : ℚ) : ℤ :=
  let f := ⌊q⌋
  let r := q - (f : ℚ)
  if r < 1/2 then f
  else if 1/2 < r then f + 1
  else if Even f then f else f + 1

/-- Observable effects of `QueuedEpochOutput.pause` / `resume`
(output.py lines 223-243): the effective time handed to the queue, the sample
offset used for `invalidate_samples` and `update_hw_ao`, and the paused
flag. -/
structure PauseEffect where
  queue_time : ℚ
  invalidate_offset : ℤ
  hw_update_offset : ℤ
  paused : Bool
  deriving Repr, DecidableEq

/-- `QueuedEpochOutput.pause` (output.py lines 223-232) as a function of the
engine timestamp `ts` and the sample rate `fs`. -/
def QueuedEpochOutput.pause (ts fs : ℚ) : PauseEffect :=
  let pause_time := ts + 1
  let offset := pyInt ((pause_time + 1) * fs)
  ⟨pause_time, offset, offset, true⟩

/-- `QueuedEpochOutput.resume` (output.py lines 234-243). -/
def QueuedEpochOutput.resume (ts fs : ℚ) : PauseEffect :=
  let resume_time := ts + 1
  let offset := pyInt ((resume_time + 1) * fs)
  ⟨resume_time, offset, offset, false⟩

/-! ### Calibration lookup (C7) -/

/-- `CalibrationError` of calibration/__init__.py (the lookup error raised by
`PointCalibration._get_sens`). -/
inductive CalError where
  | lookupError
  deriving Repr, DecidableEq

/-- `PointCalibration` (calibration/__init__.py lines 255-284). -/
structure PointCalibration where
  frequency : List ℚ
  sensitivity : List ℚ
  fixed_gain : ℚ
  deriving Repr, DecidableEq

/-- `PointCalibration.get_sens` on a scalar frequency (lines 271-284):
`np.flatnonzero(np.equal(self.frequency, frequency))[0]` takes the first
index with an exactly equal calibrated frequency; `IndexError` becomes
`CalibrationError`. -/
def PointCalibration.get_sens (c : PointCalibration) (f : ℚ) :
    Except CalError ℚ :=
  match c.frequency.findIdx? (fun x => x == f) with
  | some i => .ok (c.sensitivity.getD i 0 - c.fixed_gain)
  | none => .error .lookupError

/-- `InterpCalibration` (calibration/__init__.py lines 213-252). -/
structure InterpCalibration where
  frequency : List ℚ
  sensitivity : List ℚ
  fixed_gain : ℚ
  deriving Repr, DecidableEq

/-- Linear interpolation over the calibrated points, assuming the calibrated
frequencies are listed in increasing order (scipy sorts them at
construction). -/
def segInterp : List (ℚ × ℚ) → ℚ → ℚ
  | [], _ => 0
  | [(_, y0)], _ => y0
  | (x0, y0) :: (x1, y1) :: rest, x =>
    if x ≤ x1 then y0 + (y1 - y0) * (x - x0) / (x1 - x0)
    else segInterp ((x1, y1) :: rest) x

/-- `scipy.interpolate.interp1d(frequency, sensitivity, 'linear',
bounds_error=False)` evaluated at `x`: with `bounds_error=False` and the
default `fill_value`, frequencies outside the calibrated domain produce NaN
(modelled as `none`); inside the domain, linear interpolation. -/
def interp1d (xs ys : List ℚ) (x : ℚ) : Option ℚ :=
  match xs with
  | [] => none
  | x0 :: _ =>
    if x < xs.foldl min x0 then none
    else if xs.foldl max x0 < x then none
    else some (segInterp (xs.zip ys) x)

/-- `InterpCalibration.get_sens` (lines 249-252): never raises; NaN
propagates through the fixed-gain subtraction. -/
def InterpCalibration.get_sens (c : InterpCalibration) (f : ℚ) :
    Except CalError (Option ℚ) :=
  .ok ((interp1d c.frequency c.sensitivity f).map (fun v => v - c.fixed_gain))

/-! ### The trial queue (C4, C8, C10) -/

/-- Modelled from the spec: one entry of the trial queue
(`psi/controller/queue.py` is not in the provided sources): the setting's
metadata `key`, the per-trial waveform produced by its factory, the
inter-trial gap in samples, and the remaining repeat count. -/
structure TrialEntry where
  key : ℕ
  waveform : List ℚ
  gap : ℕ
  repeats : ℕ
  deriving Repr, DecidableEq

/-- One `uploaded` record: resolved `t0` (seconds), duration (seconds), and
the setting's metadata key. -/
structure UploadRecord where
  t0 : ℚ
  duration : ℚ
  key : ℕ
  deriving Repr, DecidableEq

/-- Modelled from the spec: the FIFO trial queue state.  `pos` counts the
samples already emitted of the current instantiation (including its gap),
`total` is the absolute sample cursor, `popCalls` counts `pop_buffer`
invocations (the observable draws from the queue). -/
structure SigQueue where
  entries : List TrialEntry
  pos : ℕ
  total : ℕ
  fs : ℚ
  uploaded : List UploadRecord
  popCalls : ℕ
  deriving Repr, DecidableEq

/-- Modelled from the spec: `is_empty()` — all entries discarded. -/
def SigQueue.is_empty (q : SigQueue) : Bool := q.entries.isEmpty

/-- Modelled from the spec: emit one sample.  Starting a new instantiation
appends one `uploaded` record with `t0 = total / fs`; reaching the end of the
instantiation plus gap decrements the repeat count (when `auto_decrement`),
discards the entry at zero, and advances to the next entry.  An empty queue
emits silence. -/
def SigQueue.step1 (auto_decrement : Bool) (q : SigQueue) : ℚ × SigQueue :=
  match q.entries with
  | [] => (0, { q with total := q.total + 1 })
  | e :: rest =>
    let q1 := if q.pos = 0 then
        { q with uploaded := q.uploaded ++
            [⟨(q.total : ℚ) / q.fs, (e.waveform.length : ℚ) / q.fs, e.key⟩] }
      else q
    let x := e.waveform.getD q1.pos 0
    let pos2 := q1.pos + 1
    if pos2 < e.waveform.length + e.gap then
      (x, { q1 with pos := pos2, total := q1.total + 1 })
    else
      let reps := if auto_decrement then e.repeats - 1 else e.repeats
      if auto_decrement ∧ reps = 0 then
        (x, { q1 with entries := rest, pos := 0, total := q1.total + 1 })
      else
        (x, { q1 with entries := { e with repeats := reps } :: rest, pos := 0,
                      total := q1.total + 1 })

/-- Draw `n` samples one at a time. -/
def SigQueue.popSamples (auto_decrement : Bool) : ℕ → SigQueue → List ℚ × SigQueue
  | 0, q => ([], q)
  | n + 1, q =>
    let p := q.step1 auto_decrement
    let pr := SigQueue.popSamples auto_decrement n p.2
    (p.1 :: pr.1, pr.2)

/-- Modelled from the spec: `pop_buffer(n, decrement)` draws `n` samples from
the current trial instantiation, advancing through repeats, gaps and entries;
counts the invocation. -/
def SigQueue.pop_buffer (q : SigQueue) (n : ℕ) (auto_decrement : Bool) :
    List ℚ × SigQueue :=
  SigQueue.popSamples auto_decrement n { q with popCalls := q.popCalls + 1 }

/-- State of a `QueuedEpochOutput` as far as `get_next_samples`
(output.py lines 263-273) is concerned, together with the deferred-call queue
of the event loop: `deferred` holds callbacks scheduled via
`enaml.application.deferred_call`, `executed` the callbacks actually run. -/
structure QSt where
  queue : SigQueue
  active : Bool
  auto_decrement : Bool
  complete_cb : Option ℕ
  complete_events : ℕ
  deferred : List ℕ
  executed : List ℕ
  deriving Repr, DecidableEq

/-- `QueuedEpochOutput.get_next_samples` (output.py lines 263-273). -/
def QSt.get_next_samples (st : QSt) (samples : ℕ) : List ℚ × QSt :=
  if st.active then
    let p := st.queue.pop_buffer samples st.auto_decrement
    match st.complete_cb with
    | some cb =>
      if p.2.is_empty then
        (p.1, { st with queue := p.2,
                        complete_events := st.complete_events + 1,
                        deferred := st.deferred ++ [cb],
                        active := false })
      else (p.1, { st with queue := p.2 })
    | none => (p.1, { st with queue := p.2 })
  else
    (List.replicate samples 0, st)

/-- The event loop's idle/cooperative dispatch point: runs all deferred
calls. -/
def QSt.dispatch_idle (st : QSt) : QSt :=
  { st with executed := st.executed ++ st.deferred, deferred := [] }

/-- A sequence of pulls on a queued epoch output. -/
def qPullSeq : QSt → List ℕ → List ℚ × QSt
  | st, [] => ([], st)
  | st, n :: rest =>
    let p := st.get_next_samples n
    let pr := qPullSeq p.2 rest
    (p.1 ++ pr.1, pr.2)

/-- C5: `notify` delivers to each registered callback, in registration order,
a chunk whose reported start time equals the input chunk's `t0` plus the
owning target's fixed filter delay, with samples and metadata unchanged. -/
theorem notify_delivery (filter_delay : ℚ) (callbacks : List ℕ)
    (store : ChunkStore) (dataRef : ℕ) (h : dataRef < store.length) :
    ((notify filter_delay callbacks store dataRef).2.map Prod.fst = callbacks)
    ∧ ∀ p ∈ (notify filter_delay callbacks store dataRef).2,
        ((notify filter_delay callbacks store dataRef).1.getD p.2 ⟨0, [], 0⟩).t0
            = (store.getD dataRef ⟨0, [], 0⟩).t0 + filter_delay
        ∧ ((notify filter_delay callbacks store dataRef).1.getD p.2 ⟨0, [], 0⟩).samples
            = (store.getD dataRef ⟨0, [], 0⟩).samples
        ∧ ((notify filter_delay callbacks store dataRef).1.getD p.2 ⟨0, [], 0⟩).metadata
            = (store.getD dataRef ⟨0, [], 0⟩).metadata := by
  unfold notify
  dsimp only
  constructor
  · rw [List.map_map]
    exact List.map_id _
  · intro p hp
    simp only [List.mem_map] at hp
    obtain ⟨cb, _, hpe⟩ := hp
    have hp2 : p.2 = store.length := by rw [← hpe]
    rw [hp2]
    have hlen : store.length < ((store ++ [store.getD dataRef ⟨0, [], 0⟩]).set
        store.length { store.getD dataRef ⟨0, [], 0⟩ with
          t0 := (store.getD dataRef ⟨0, [], 0⟩).t0 + filter_delay }).length := by
      simp
    rw [List.getD_eq_getElem _ _ hlen, List.getElem_set_self]
    exact ⟨rfl, rfl, rfl⟩

theorem notify_delivery_witness :
    (0 : ℕ) < ([⟨3, [1, 2], 5⟩] : ChunkStore).length
    ∧ (((notify (1/2) [10, 20] [⟨3, [1, 2], 5⟩] 0).2.map Prod.fst = [10, 20])
       ∧ ∀ p ∈ (notify (1/2) [10, 20] [⟨3, [1, 2], 5⟩] 0).2,
          ((notify (1/2) [10, 20] [⟨3, [1, 2], 5⟩] 0).1.getD p.2 ⟨0, [], 0⟩).t0
              = (([⟨3, [1, 2], 5⟩] : ChunkStore).getD 0 ⟨0, [], 0⟩).t0 + 1/2
          ∧ ((notify (1/2) [10, 20] [⟨3, [1, 2], 5⟩] 0).1.getD p.2 ⟨0, [], 0⟩).samples
              = (([⟨3, [1, 2], 5⟩] : ChunkStore).getD 0 ⟨0, [], 0⟩).samples
          ∧ ((notify (1/2) [10, 20] [⟨3, [1, 2], 5⟩] 0).1.getD p.2 ⟨0, [], 0⟩).metadata
              = (([⟨3, [1, 2], 5⟩] : ChunkStore).getD 0 ⟨0, [], 0⟩).metadata) :=
  ⟨by decide, notify_delivery (1/2) [10, 20] [⟨3, [1, 2], 5⟩] 0 (by decide)⟩

/-- C9: `notify` never mutates the caller's chunk: the `t0` shift is applied
to a copy (`d = data.copy()`), so after the call the store still holds the
original chunk at the caller's reference. -/
theorem notify_no_mutation (filter_delay : ℚ) (callbacks : List ℕ)
    (store : ChunkStore) (dataRef : ℕ) (h : dataRef < store.length) :
    (notify filter_delay callbacks store dataRef).1.getD dataRef ⟨0, [], 0⟩
      = store.getD dataRef ⟨0, [], 0⟩ := by
  unfold notify
  dsimp only
  rw [List.getD_eq_getElem _ _ (by simp; omega)]
  rw [List.getElem_set_ne (by omega)]
  rw [List.getElem_append_left h]
  rw [List.getD_eq_getElem _ _ h]

theorem notify_no_mutation_witness :
    (0 : ℕ) < ([⟨3, [1, 2], 5⟩] : ChunkStore).length
    ∧ (notify (1/2) [10, 20] [⟨3, [1, 2], 5⟩] 0).1.getD 0 ⟨0, [], 0⟩
        = ([⟨3, [1, 2], 5⟩] : ChunkStore).getD 0 ⟨0, [], 0⟩ :=
  ⟨by decide, notify_no_mutation (1/2) [10, 20] [⟨3, [1, 2], 5⟩] 0 (by decide)⟩

/-- C6 counterexample: at engine timestamp 0 with `fs = 100000`, the
effective pause time handed to the queue is `t = 1` second, so the claimed
conversion gives `round(1 * 100000) = 100000`; the buffer-invalidation
offset the code computes is `int((1 + 1) * 100000) = 200000`.  Moreover the
conversion is truncating `int`, not `round`: they differ at `21.5`. -/
theorem pause_offset_counterexample :
    (QueuedEpochOutput.pause 0 100000).queue_time = 1
    ∧ (QueuedEpochOutput.pause 0 100000).invalidate_offset = 200000
    ∧ pyRound ((QueuedEpochOutput.pause 0 100000).queue_time * 100000) = 100000
    ∧ (QueuedEpochOutput.pause 0 100000).invalidate_offset
        ≠ pyRound ((QueuedEpochOutput.pause 0 100000).queue_time * 100000)
    ∧ (QueuedEpochOutput.resume 0 100000).invalidate_offset
        ≠ pyRound ((QueuedEpochOutput.resume 0 100000).queue_time * 100000)
    ∧ pyInt ((43 : ℚ) / 2) ≠ pyRound ((43 : ℚ) / 2) := by
  have e1 : (QueuedEpochOutput.pause 0 100000).queue_time = 1 := by
    unfold QueuedEpochOutput.pause
    norm_num
  have e2 : (QueuedEpochOutput.pause 0 100000).invalidate_offset = 200000 := by
    unfold QueuedEpochOutput.pause pyInt
    norm_num
  have e2r : (QueuedEpochOutput.resume 0 100000).invalidate_offset = 200000 := by
    unfold QueuedEpochOutput.resume pyInt
    norm_num
  have e1r : (QueuedEpochOutput.resume 0 100000).queue_time = 1 := by
    unfold QueuedEpochOutput.resume
    norm_num
  have e3 : pyRound ((1 : ℚ) * 100000) = 100000 := by
    unfold pyRound
    norm_num
  have e4 : pyRound ((43 : ℚ) / 2) = 22 := by
    unfold pyRound
    norm_num
    decide
  have e5 : pyInt ((43 : ℚ) / 2) = 21 := by
    unfold pyInt
    norm_num
  refine ⟨e1, e2, ?_, ?_, ?_, ?_⟩
  · rw [e1]
    exact e3
  · rw [e1, e2, e3]
    decide
  · rw [e1r, e2r, e3]
    decide
  · rw [e4, e5]
    decide

/-- C6 amended: the pause/resume offset conversion is not `round(t * fs)` at
the effective time `t`; both `pause` and `resume` hand `t = ts + 1` to the
queue and compute the buffer-invalidation and hardware-update offset as the
truncating conversion `int((t + 1) * fs)`, i.e. with a fixed additional
one-second margin. -/
theorem pause_resume_offset_conversion (ts fs : ℚ) :
    (QueuedEpochOutput.pause ts fs).queue_time = ts + 1
    ∧ (QueuedEpochOutput.pause ts fs).invalidate_offset
        = pyInt (((QueuedEpochOutput.pause ts fs).queue_time + 1) * fs)
    ∧ (QueuedEpochOutput.pause ts fs).hw_update_offset
        = (QueuedEpochOutput.pause ts fs).invalidate_offset
    ∧ (QueuedEpochOutput.pause ts fs).paused = true
    ∧ (QueuedEpochOutput.resume ts fs).queue_time = ts + 1
    ∧ (QueuedEpochOutput.resume ts fs).invalidate_offset
        = pyInt (((QueuedEpochOutput.resume ts fs).queue_time + 1) * fs)
    ∧ (QueuedEpochOutput.resume ts fs).hw_update_offset
        = (QueuedEpochOutput.resume ts fs).invalidate_offset
    ∧ (QueuedEpochOutput.resume ts fs).paused = false :=
  ⟨rfl, rfl, rfl, rfl, rfl, rfl, rfl, rfl⟩

theorem foldl_min_le_init (l : List ℚ) (a : ℚ) : l.foldl min a ≤ a := by
  induction l generalizing a with
  | nil => simp
  | cons x xs ih =>
    simp only [List.foldl_cons]
    exact le_trans (ih (min a x)) (min_le_left a x)

theorem init_le_foldl_max (l : List ℚ) (a : ℚ) : a ≤ l.foldl max a := by
  induction l generalizing a with
  | nil => simp
  | cons x xs ih =>
    simp only [List.foldl_cons]
    exact le_trans (le_max_left a x) (ih (max a x))

/-- C7 counterexample: the interpolated calibration over frequencies
`[100, 200]` with sensitivities `[1, 2]`, looked up at the out-of-domain
frequency 300, yields the NaN marker (`none`) — neither the clamped endpoint
sensitivity 2 nor the linear extrapolation 3, nor any other value. -/
theorem interp_out_of_domain_counterexample :
    InterpCalibration.get_sens ⟨[100, 200], [1, 2], 0⟩ 300 = .ok none
    ∧ ∀ v : ℚ,
        InterpCalibration.get_sens ⟨[100, 200], [1, 2], 0⟩ 300 ≠ .ok (some v) := by
  have h1 : InterpCalibration.get_sens ⟨[100, 200], [1, 2], 0⟩ 300 = .ok none := by
    rfl
  refine ⟨h1, fun v hv => ?_⟩
  rw [h1] at hv
  simp at hv

/-- C7 amended: a calibration lookup raises exactly when the calibration is
point-sampled and the frequency is not in its calibrated set;
interpolated lookup never raises for any frequency, but out-of-domain
frequencies yield NaN (`none`) rather than a clamped or extrapolated
sensitivity. -/
theorem calibration_lookup_error_policy (c : PointCalibration)
    (ci : InterpCalibration) (f g : ℚ) :
    ((∃ e, c.get_sens f = .error e) ↔ f ∉ c.frequency)
    ∧ (∃ v, ci.get_sens g = .ok v)
    ∧ (∀ x0 xs, ci.frequency = x0 :: xs →
        (g < ci.frequency.foldl min x0 ∨ ci.frequency.foldl max x0 < g) →
        ci.get_sens g = .ok none) := by
  refine ⟨?_, ⟨_, rfl⟩, ?_⟩
  · have hnone : c.frequency.findIdx? (fun x => x == f) = none ↔ f ∉ c.frequency := by
      rw [List.findIdx?_eq_none_iff]
      constructor
      · intro hall hf
        have := hall f hf
        simp at this
      · intro hf x hx
        simp only [beq_eq_false_iff_ne, ne_eq]
        intro hxf
        exact hf (hxf ▸ hx)
    unfold PointCalibration.get_sens
    cases hidx : c.frequency.findIdx? (fun x => x == f) with
    | some i =>
      constructor
      · rintro ⟨e, he⟩
        simp at he
      · intro hf
        rw [← hnone] at hf
        rw [hidx] at hf
        simp at hf
    | none =>
      constructor
      · intro _
        exact hnone.mp hidx
      · intro _
        exact ⟨.lookupError, rfl⟩
  · intro x0 xs hfreq hout
    unfold InterpCalibration.get_sens interp1d
    rw [hfreq] at hout ⊢
    dsimp only
    rcases hout with hlo | hhi
    · rw [if_pos hlo]
      rfl
    · have hmin : (x0 :: xs).foldl min x0 ≤ x0 := foldl_min_le_init _ _
      have hmax : x0 ≤ (x0 :: xs).foldl max x0 := init_le_foldl_max _ _
      rw [if_neg (by linarith), if_pos hhi]
      rfl

theorem calibration_lookup_error_policy_witness :
    ((∃ e, PointCalibration.get_sens ⟨[100], [1], 0⟩ 150 = .error e)
        ↔ (150 : ℚ) ∉ (⟨[100], [1], 0⟩ : PointCalibration).frequency)
    ∧ (∃ v, InterpCalibration.get_sens ⟨[100, 200], [1, 2], 0⟩ 300 = .ok v)
    ∧ (∀ x0 xs, (⟨[100, 200], [1, 2], 0⟩ : InterpCalibration).frequency = x0 :: xs →
        ((300 : ℚ) < (⟨[100, 200], [1, 2], 0⟩ : InterpCalibration).frequency.foldl min x0
          ∨ (⟨[100, 200], [1, 2], 0⟩ : InterpCalibration).frequency.foldl max x0 < 300) →
        InterpCalibration.get_sens ⟨[100, 200], [1, 2], 0⟩ 300 = .ok none) :=
  calibration_lookup_error_policy ⟨[100], [1], 0⟩ ⟨[100, 200], [1, 2], 0⟩ 150 300

/-! ### Queue lemmas (C4, C8, C10) -/

theorem step1_shape (auto_decrement : Bool) (q : SigQueue) :
    (q.step1 auto_decrement).2.fs = q.fs
    ∧ (q.step1 auto_decrement).2.popCalls = q.popCalls
    ∧ (q.step1 auto_decrement).2.total = q.total + 1
    ∧ (∃ t, (q.step1 auto_decrement).2.uploaded = q.uploaded ++ t)
    ∧ (q.entries = [] → (q.step1 auto_decrement).2.entries = []) := by
  unfold SigQueue.step1
  cases hq : q.entries with
  | nil =>
    exact ⟨rfl, rfl, rfl, ⟨[], by simp⟩, fun _ => rfl⟩
  | cons e rest =>
    dsimp only
    by_cases hpos : q.pos = 0
    · rw [if_pos hpos]
      dsimp only
      repeat' split
      all_goals exact ⟨rfl, rfl, rfl, ⟨_, rfl⟩, by intro h; simp at h⟩
    · rw [if_neg hpos]
      repeat' split
      all_goals exact ⟨rfl, rfl, rfl, ⟨[], by simp⟩, by intro h; simp at h⟩

theorem popSamples_shape (auto_decrement : Bool) (n : ℕ) (q : SigQueue) :
    (SigQueue.popSamples auto_decrement n q).2.fs = q.fs
    ∧ (SigQueue.popSamples auto_decrement n q).2.popCalls = q.popCalls
    ∧ (∃ t, (SigQueue.popSamples auto_decrement n q).2.uploaded = q.uploaded ++ t)
    ∧ (q.entries = [] → (SigQueue.popSamples auto_decrement n q).2.entries = []) := by
  induction n generalizing q with
  | zero => exact ⟨rfl, rfl, ⟨[], by simp [SigQueue.popSamples]⟩, fun h => h⟩
  | succ n ih =>
    obtain ⟨h1, h2, _, ⟨t, ht⟩, h5⟩ := step1_shape auto_decrement q
    obtain ⟨g1, g2, ⟨t2, ht2⟩, g4⟩ := ih (q.step1 auto_decrement).2
    unfold SigQueue.popSamples
    refine ⟨by rw [g1, h1], by rw [g2, h2], ?_, ?_⟩
    · refine ⟨t ++ t2, ?_⟩
      rw [ht2, ht, List.append_assoc]
    · intro h
      exact g4 (h5 h)

/-- The well-formedness invariant of the uploaded log: t0 strictly increasing
and every record's t0 at least one sample behind the cursor. -/
def QInvariant (q : SigQueue) : Prop :=
  List.Chain' (· < ·) (q.uploaded.map UploadRecord.t0)
  ∧ ∀ r ∈ q.uploaded, r.t0 * q.fs + 1 ≤ (q.total : ℚ)

theorem step1_QInvariant (auto_decrement : Bool) (q : SigQueue)
    (hfs : 0 < q.fs) (h : QInvariant q) : QInvariant (q.step1 auto_decrement).2 := by
  obtain ⟨hch, hbd⟩ := h
  have hrelax : ∀ r ∈ q.uploaded, r.t0 * q.fs + 1 ≤ ((q.total + 1 : ℕ) : ℚ) := by
    intro r hr
    have := hbd r hr
    push_cast
    push_cast at this
    linarith
  unfold QInvariant
  unfold SigQueue.step1
  cases hq : q.entries with
  | nil => exact ⟨hch, hrelax⟩
  | cons e rest =>
    dsimp only
    by_cases hpos : q.pos = 0
    · rw [if_pos hpos]
      have key1 : List.Chain' (· < ·)
          ((q.uploaded ++ [(⟨(q.total : ℚ) / q.fs,
              ((e.waveform.length : ℕ) : ℚ) / q.fs, e.key⟩ : UploadRecord)]).map
            UploadRecord.t0) := by
        rw [List.map_append]
        rw [List.chain'_append]
        refine ⟨hch, List.chain'_singleton _, ?_⟩
        intro x hx y hy
        simp only [List.map_cons, List.map_nil, List.head?_cons, Option.mem_def,
                   Option.some.injEq] at hy
        obtain ⟨hne, hxl⟩ := List.mem_getLast?_eq_getLast hx
        have hxmem : x ∈ q.uploaded.map UploadRecord.t0 := hxl ▸ List.getLast_mem hne
        simp only [List.mem_map] at hxmem
        obtain ⟨r, hr, hrx⟩ := hxmem
        have hb := hbd r hr
        rw [← hy, ← hrx]
        show r.t0 < (q.total : ℚ) / q.fs
        rw [lt_div_iff₀ hfs]
        linarith
      have key2 : ∀ r ∈ q.uploaded ++ [(⟨(q.total : ℚ) / q.fs,
            ((e.waveform.length : ℕ) : ℚ) / q.fs, e.key⟩ : UploadRecord)],
          r.t0 * q.fs + 1 ≤ ((q.total + 1 : ℕ) : ℚ) := by
        intro r hr
        rcases List.mem_append.mp hr with hold | hnew
        · exact hrelax r hold
        · simp only [List.mem_singleton] at hnew
          subst hnew
          dsimp only
          rw [div_mul_cancel₀ _ (ne_of_gt hfs)]
          push_cast
          linarith
      repeat' split
      all_goals exact ⟨key1, key2⟩
    · rw [if_neg hpos]
      repeat' split
      all_goals exact ⟨hch, hrelax⟩

theorem popSamples_QInvariant (auto_decrement : Bool) (n : ℕ) (q : SigQueue)
    (hfs : 0 < q.fs) (h : QInvariant q) :
    QInvariant (SigQueue.popSamples auto_decrement n q).2 := by
  induction n generalizing q with
  | zero => exact h
  | succ n ih =>
    unfold SigQueue.popSamples
    have hfs1 : 0 < (q.step1 auto_decrement).2.fs := by
      rw [(step1_shape auto_decrement q).1]
      exact hfs
    exact ih (q.step1 auto_decrement).2 hfs1 (step1_QInvariant auto_decrement q hfs h)

theorem QInvariant_fresh (q : SigQueue) (h : q.uploaded = []) : QInvariant q := by
  unfold QInvariant
  rw [h]
  refine ⟨by simp, ?_⟩
  intro r hr
  simp at hr

/-- C8: the uploaded log is append-only with strictly increasing t0 across
every drain, and the concrete queue `[(A, repeat 2), (B, repeat 1)]` with
zero inter-trial gap drains to exactly 3 uploaded records in order A, A, B
with strictly increasing t0. -/
theorem trial_queue_uploaded (q : SigQueue) (n : ℕ) (auto_decrement : Bool)
    (hfs : 0 < q.fs)
    (hchain : List.Chain' (· < ·) (q.uploaded.map UploadRecord.t0))
    (hbound : ∀ r ∈ q.uploaded, r.t0 * q.fs + 1 ≤ (q.total : ℚ)) :
    (∃ tail, ((q.pop_buffer n auto_decrement).2).uploaded = q.uploaded ++ tail)
    ∧ List.Chain' (· < ·)
        (((q.pop_buffer n auto_decrement).2).uploaded.map UploadRecord.t0)
    ∧ ((SigQueue.pop_buffer ⟨[⟨0, [1], 0, 2⟩, ⟨1, [2], 0, 1⟩], 0, 0, 1, [], 0⟩
          3 true).2.uploaded.map UploadRecord.key = [0, 0, 1]
       ∧ (SigQueue.pop_buffer ⟨[⟨0, [1], 0, 2⟩, ⟨1, [2], 0, 1⟩], 0, 0, 1, [], 0⟩
            3 true).2.uploaded.length = 3
       ∧ (SigQueue.pop_buffer ⟨[⟨0, [1], 0, 2⟩, ⟨1, [2], 0, 1⟩], 0, 0, 1, [], 0⟩
            3 true).2.is_empty = true
       ∧ List.Chain' (· < ·)
          ((SigQueue.pop_buffer ⟨[⟨0, [1], 0, 2⟩, ⟨1, [2], 0, 1⟩], 0, 0, 1, [], 0⟩
            3 true).2.uploaded.map UploadRecord.t0)) := by
  refine ⟨?_, ?_, by decide, by decide, by decide, ?_⟩
  · exact (popSamples_shape auto_decrement n _).2.2.1
  · exact (popSamples_QInvariant auto_decrement n
      { q with popCalls := q.popCalls + 1 } hfs ⟨hchain, hbound⟩).1
  · exact (popSamples_QInvariant true 3 _ (by norm_num)
      (QInvariant_fresh _ rfl)).1

theorem trial_queue_uploaded_witness :
    (0 : ℚ) < 1
    ∧ (∃ tail, ((SigQueue.pop_buffer ⟨[⟨0, [1], 0, 2⟩, ⟨1, [2], 0, 1⟩], 0, 0, 1, [], 0⟩
          6 true).2).uploaded = [] ++ tail)
    ∧ List.Chain' (· < ·)
        (((SigQueue.pop_buffer ⟨[⟨0, [1], 0, 2⟩, ⟨1, [2], 0, 1⟩], 0, 0, 1, [], 0⟩
          6 true).2).uploaded.map UploadRecord.t0) := by
  have h := trial_queue_uploaded ⟨[⟨0, [1], 0, 2⟩, ⟨1, [2], 0, 1⟩], 0, 0, 1, [], 0⟩
    6 true (by norm_num) (by simp) (by intro r hr; simp at hr)
  exact ⟨by norm_num, h.1, h.2.1⟩

theorem get_next_inactive (st : QSt) (n : ℕ) (h : st.active = false) :
    st.get_next_samples n = (List.replicate n 0, st) := by
  unfold QSt.get_next_samples
  rw [h]
  simp

theorem qPullSeq_state_inactive (ns : List ℕ) (st : QSt) (h : st.active = false) :
    (qPullSeq st ns).2 = st := by
  induction ns with
  | nil => rfl
  | cons n rest ih =>
    unfold qPullSeq
    rw [get_next_inactive st n h]
    exact ih

/-- C4: once the trial queue of a queued epoch output (with a registered
completion callback) drains to empty during a pull, the channel is
deactivated and exactly one deferred invocation of the callback is
scheduled — never on partial drains, never a second time — and no callback is
executed synchronously inside any pull. -/
theorem queue_complete_callback_once (st : QSt) (ns : List ℕ) (cb : ℕ)
    (hact : st.active = true) (hcb : st.complete_cb = some cb)
    (hq : st.queue.entries ≠ []) :
    ((qPullSeq st ns).2.deferred
        = st.deferred ++ (if (qPullSeq st ns).2.queue.entries = [] then [cb] else []))
    ∧ (qPullSeq st ns).2.executed = st.executed
    ∧ ((qPullSeq st ns).2.complete_events
        = st.complete_events + (if (qPullSeq st ns).2.queue.entries = [] then 1 else 0))
    ∧ ((qPullSeq st ns).2.queue.entries = [] → (qPullSeq st ns).2.active = false)
    ∧ ((qPullSeq st ns).2.queue.entries ≠ [] →
        (qPullSeq st ns).2.active = true
        ∧ (qPullSeq st ns).2.complete_cb = some cb) := by
  induction ns generalizing st with
  | nil =>
    refine ⟨?_, rfl, ?_, fun h => absurd h hq, fun _ => ⟨hact, hcb⟩⟩
    · show st.deferred = st.deferred ++ (if st.queue.entries = [] then [cb] else [])
      rw [if_neg hq]
      simp
    · show st.complete_events
        = st.complete_events + (if st.queue.entries = [] then 1 else 0)
      rw [if_neg hq]
      simp
  | cons n rest ih =>
    unfold qPullSeq
    unfold QSt.get_next_samples
    rw [hact, hcb]
    dsimp only
    by_cases hemp : ((st.queue.pop_buffer n st.auto_decrement).2).is_empty = true
    · rw [if_pos rfl, if_pos hemp]
      dsimp only
      rw [qPullSeq_state_inactive rest _ rfl]
      dsimp only
      have hee : ((st.queue.pop_buffer n st.auto_decrement).2).entries = [] :=
        List.isEmpty_iff.mp hemp
      rw [if_pos hee, if_pos hee]
      exact ⟨rfl, rfl, rfl, fun _ => rfl, fun h => absurd hee h⟩
    · rw [if_pos rfl, if_neg hemp]
      dsimp only
      have hne : ((st.queue.pop_buffer n st.auto_decrement).2).entries ≠ [] := by
        intro h
        exact hemp (List.isEmpty_iff.mpr h)
      exact ih ⟨(st.queue.pop_buffer n st.auto_decrement).2, true, st.auto_decrement,
        some cb, st.complete_events, st.deferred, st.executed⟩ rfl rfl hne

theorem queue_complete_callback_once_witness :
    ((qPullSeq ⟨⟨[⟨0, [1], 0, 1⟩], 0, 0, 1, [], 0⟩, true, true, some 5, 0, [], []⟩
        [2]).2.deferred
      = [] ++ (if (qPullSeq ⟨⟨[⟨0, [1], 0, 1⟩], 0, 0, 1, [], 0⟩, true, true,
          some 5, 0, [], []⟩ [2]).2.queue.entries = [] then [5] else []))
    ∧ (qPullSeq ⟨⟨[⟨0, [1], 0, 1⟩], 0, 0, 1, [], 0⟩, true, true, some 5, 0, [], []⟩
        [2]).2.executed = []
    ∧ ((qPullSeq ⟨⟨[⟨0, [1], 0, 1⟩], 0, 0, 1, [], 0⟩, true, true, some 5, 0, [], []⟩
        [2]).2.complete_events
      = 0 + (if (qPullSeq ⟨⟨[⟨0, [1], 0, 1⟩], 0, 0, 1, [], 0⟩, true, true,
          some 5, 0, [], []⟩ [2]).2.queue.entries = [] then 1 else 0))
    ∧ ((qPullSeq ⟨⟨[⟨0, [1], 0, 1⟩], 0, 0, 1, [], 0⟩, true, true, some 5, 0, [], []⟩
        [2]).2.queue.entries = []
      → (qPullSeq ⟨⟨[⟨0, [1], 0, 1⟩], 0, 0, 1, [], 0⟩, true, true, some 5, 0, [], []⟩
          [2]).2.active = false)
    ∧ ((qPullSeq ⟨⟨[⟨0, [1], 0, 1⟩], 0, 0, 1, [], 0⟩, true, true, some 5, 0, [], []⟩
        [2]).2.queue.entries ≠ []
      → (qPullSeq ⟨⟨[⟨0, [1], 0, 1⟩], 0, 0, 1, [], 0⟩, true, true, some 5, 0, [], []⟩
          [2]).2.active = true
        ∧ (qPullSeq ⟨⟨[⟨0, [1], 0, 1⟩], 0, 0, 1, [], 0⟩, true, true, some 5, 0, [], []⟩
          [2]).2.complete_cb = some 5) :=
  queue_complete_callback_once
    ⟨⟨[⟨0, [1], 0, 1⟩], 0, 0, 1, [], 0⟩, true, true, some 5, 0, [], []⟩
    [2] 5 rfl rfl (by decide)

theorem pop_buffer_popCalls (q : SigQueue) (n : ℕ) (auto_decrement : Bool) :
    (q.pop_buffer n auto_decrement).2.popCalls = q.popCalls + 1 := by
  unfold SigQueue.pop_buffer
  exact (popSamples_shape auto_decrement n _).2.1

/-- C10: with no completion callback registered, draining the queue during a
pull neither deactivates the channel nor fires the complete event: the
channel stays active and every subsequent pull still draws from the (empty)
queue via `pop_buffer` instead of taking the inactive zero branch. -/
theorem no_callback_no_deactivate (st : QSt) (n : ℕ)
    (hact : st.active = true) (hcb : st.complete_cb = none)
    (hdrain : ((st.queue.pop_buffer n st.auto_decrement).2).entries = []) :
    ((st.get_next_samples n).2.active = true)
    ∧ (st.get_next_samples n).2.complete_events = st.complete_events
    ∧ (st.get_next_samples n).2.deferred = st.deferred
    ∧ (st.get_next_samples n).1 = (st.queue.pop_buffer n st.auto_decrement).1
    ∧ ∀ m, ((st.get_next_samples n).2.get_next_samples m).1
          = ((st.get_next_samples n).2.queue.pop_buffer m st.auto_decrement).1
        ∧ ((st.get_next_samples n).2.get_next_samples m).2.queue.popCalls
          = (st.get_next_samples n).2.queue.popCalls + 1 := by
  have hstep : st.get_next_samples n =
      ((st.queue.pop_buffer n st.auto_decrement).1,
       { st with queue := (st.queue.pop_buffer n st.auto_decrement).2 }) := by
    unfold QSt.get_next_samples
    rw [hact, hcb]
    rfl
  rw [hstep]
  refine ⟨hact, rfl, rfl, rfl, ?_⟩
  intro m
  have hstep2 : QSt.get_next_samples
      { st with queue := (st.queue.pop_buffer n st.auto_decrement).2 } m =
      (((st.queue.pop_buffer n st.auto_decrement).2).pop_buffer m st.auto_decrement |>.1,
       { st with queue :=
          (((st.queue.pop_buffer n st.auto_decrement).2).pop_buffer m
            st.auto_decrement).2 }) := by
    unfold QSt.get_next_samples
    rw [show ({ st with queue := (st.queue.pop_buffer n st.auto_decrement).2 } :
        QSt).active = true from hact]
    rw [show ({ st with queue := (st.queue.pop_buffer n st.auto_decrement).2 } :
        QSt).complete_cb = none from hcb]
    rfl
  rw [hstep2]
  exact ⟨rfl, pop_buffer_popCalls _ m st.auto_decrement⟩

theorem no_callback_no_deactivate_witness :
    ((QSt.get_next_samples ⟨⟨[⟨0, [1], 0, 1⟩], 0, 0, 1, [], 0⟩, true, true,
        none, 0, [], []⟩ 2).2.active = true)
    ∧ (QSt.get_next_samples ⟨⟨[⟨0, [1], 0, 1⟩], 0, 0, 1, [], 0⟩, true, true,
        none, 0, [], []⟩ 2).2.complete_events = 0
    ∧ (QSt.get_next_samples ⟨⟨[⟨0, [1], 0, 1⟩], 0, 0, 1, [], 0⟩, true, true,
        none, 0, [], []⟩ 2).2.deferred = []
    ∧ (QSt.get_next_samples ⟨⟨[⟨0, [1], 0, 1⟩], 0, 0, 1, [], 0⟩, true, true,
        none, 0, [], []⟩ 2).1
      = (SigQueue.pop_buffer ⟨[⟨0, [1], 0, 1⟩], 0, 0, 1, [], 0⟩ 2 true).1
    ∧ ∀ m, ((QSt.get_next_samples ⟨⟨[⟨0, [1], 0, 1⟩], 0, 0, 1, [], 0⟩, true, true,
            none, 0, [], []⟩ 2).2.get_next_samples m).1
          = ((QSt.get_next_samples ⟨⟨[⟨0, [1], 0, 1⟩], 0, 0, 1, [], 0⟩, true, true,
            none, 0, [], []⟩ 2).2.queue.pop_buffer m true).1
        ∧ ((QSt.get_next_samples ⟨⟨[⟨0, [1], 0, 1⟩], 0, 0, 1, [], 0⟩, true, true,
            none, 0, [], []⟩ 2).2.get_next_samples m).2.queue.popCalls
          = (QSt.get_next_samples ⟨⟨[⟨0, [1], 0, 1⟩], 0, 0, 1, [], 0⟩, true, true,
            none, 0, [], []⟩ 2).2.queue.popCalls + 1 :=
  no_callback_no_deactivate
    ⟨⟨[⟨0, [1], 0, 1⟩], 0, 0, 1, [], 0⟩, true, true, none, 0, [], []⟩ 2
    rfl rfl (by decide)

end PsiOut
